import Mathlib

/-!
# Verification of the angular-dependency-analyzer core (`src/main.rs`)

Shallow embedding of the Rust program in `src/main.rs`, which scans
TypeScript/TSX files, collects import-bound names per file, counts
identifier occurrences of those names, aggregates per-file counts into a
global map, and prints the result sorted by count descending.

The embedding mirrors the source:

* `ImportSpecifier` models `swc_ecma_ast::ImportSpecifier` (named / default
  / namespace), keeping the local symbol and, for named specifiers, the
  optional `imported` identifier (`import { a as b }` has local `b`,
  imported `a`).
* `Node` models the module AST as seen by the `Visit` implementation in
  `main.rs` lines 23-42: the visitor overrides only `visit_import_decl`
  and `visit_ident`; every other node kind receives the default traversal,
  which just walks its children.  Hence export declarations (including
  re-exports `export { x } from 'y'`), statements, expressions etc. are
  all modelled by `Node.other` holding their child nodes, with any
  identifier appearing in them modelled by `Node.ident`.
* `Analyzer`, `Analyzer.visitIdent`, `Analyzer.visitImportDecl` and the
  traversal `visitNode` / `visitNodes` follow `impl Visit for Analyzer`
  (lines 23-42); `entryAdd` models
  `*map.entry(key).or_insert(0) += v` on a `HashMap<String, usize>`
  represented as an association list.
* `mergeInto` models the aggregation loop `main.rs` lines 106-108,
  `runFiles` the per-file loop of `main` (read ⟶ parse ⟶ analyze ⟶
  merge, with `?` on the read and `continue` on parse failure,
  lines 75-109), and `report` the final
  `sorted.sort_by(|a, b| b.1.cmp(&a.1))` of lines 112-113.
-/

/-- An import specifier as in `swc_ecma_ast::ImportSpecifier`
(`main.rs` lines 26-30).  For a named specifier `import { a as b }`
the local symbol is `b` and `imported = some "a"`; for `import { a }`
the local symbol is `a` and `imported = none`. -/
inductive ImportSpecifier where
  | named (localSym : String) (imported : Option String)
  | dflt (localSym : String)
  | nspace (localSym : String)
deriving DecidableEq, Repr

/-- The module AST as the visitor of `main.rs` sees it: identifier
nodes, the import declarations, and every other node kind
(`Node.other`), which the default swc traversal handles by visiting its
children in order. -/
inductive Node where
  | ident (sym : String)
  | importDecl (specifiers : List ImportSpecifier)
  | other (children : List Node)
deriving Repr

/-- The local name pushed for a specifier in `visit_import_decl`
(`main.rs` lines 26-30): `named.local.sym` / `def.local.sym` /
`ns.local.sym`. -/
def specLocal : ImportSpecifier → String
  | .named l _ => l
  | .dflt l => l
  | .nspace l => l

/-- The identifier nodes contained in a specifier, in the order the
default traversal (`n.visit_children_with(self)`, `main.rs` line 33)
visits them: the `local` ident first, then (for a named specifier with an
alias) the `imported` ident. -/
def specIdents : ImportSpecifier → List String
  | .named l (some i) => [l, i]
  | .named l none => [l]
  | .dflt l => [l]
  | .nspace l => [l]

/-- `*m.entry(k).or_insert(0) += v` on a `HashMap<String, usize>`
modelled as an association list: add `v` to the first entry with key `k`,
or append a fresh entry `(k, v)`. -/
def entryAdd (m : List (String × Nat)) (k : String) (v : Nat) :
    List (String × Nat) :=
  match m with
  | [] => [(k, v)]
  | e :: rest => if e.1 = k then (e.1, e.2 + v) :: rest else e :: entryAdd rest k v

/-- The state of `struct Analyzer` (`main.rs` lines 9-12):
`imports: Vec<String>`, `usage: HashMap<String, usize>`. -/
structure Analyzer where
  imports : List String
  usage : List (String × Nat)
deriving Repr, DecidableEq

/-- `Analyzer::new()` (`main.rs` lines 15-20). -/
def Analyzer.new : Analyzer := ⟨[], []⟩

/-- `visit_ident` (`main.rs` lines 36-41): if the symbol is in
`self.imports`, increment its usage count by one. -/
def Analyzer.visitIdent (a : Analyzer) (sym : String) : Analyzer :=
  if a.imports.contains sym then
    { a with usage := entryAdd a.usage sym 1 }
  else a

/-- `visit_import_decl` (`main.rs` lines 24-34): push the local name of
every specifier onto `self.imports`, then visit the declaration's
children, i.e. the identifier nodes inside the specifiers. -/
def Analyzer.visitImportDecl (a : Analyzer) (specs : List ImportSpecifier) :
    Analyzer :=
  let a1 : Analyzer := { a with imports := a.imports ++ specs.map specLocal }
  ((specs.map specIdents).flatten).foldl Analyzer.visitIdent a1

mutual

/-- Depth-first traversal of one node, as the swc visitor dispatches it:
`visit_ident` on identifier nodes, `visit_import_decl` on import
declarations, and the default child-walk on everything else. -/
def visitNode (a : Analyzer) : Node → Analyzer
  | .ident s => a.visitIdent s
  | .importDecl specs => a.visitImportDecl specs
  | .other cs => visitNodes a cs

/-- Traversal of a list of sibling nodes in order. -/
def visitNodes (a : Analyzer) : List Node → Analyzer
  | [] => a
  | n :: ns => visitNodes (visitNode a n) ns

end

/-- `module.visit_with(&mut analyzer)` on a fresh analyzer
(`main.rs` lines 102-103); a module is its list of top-level items. -/
def analyzeModule (m : List Node) : Analyzer :=
  visitNodes Analyzer.new m

/-! ## Map lookup, aggregation, the main loop and the report -/

/-- First-match lookup in the association-list model of
`HashMap<String, usize>`: `some v` when the key is present, `none`
otherwise (`HashMap::get` semantics). -/
def lookupCount (m : List (String × Nat)) (k : String) : Option Nat :=
  match m with
  | [] => none
  | e :: rest => if e.1 = k then some e.2 else lookupCount rest k

/-- The count stored for `k`, an absent key counting as zero. -/
def getCount (m : List (String × Nat)) (k : String) : Nat :=
  (lookupCount m k).getD 0

/-- Whether the map has an entry for `k` (`HashMap::contains_key`). -/
def hasKey (m : List (String × Nat)) (k : String) : Bool :=
  (lookupCount m k).isSome

/-- The sum of the values of all entries whose key is `k` (equal to
`getCount` on maps with no duplicate keys). -/
def entrySum : List (String × Nat) → String → Nat
  | [], _ => 0
  | e :: rest, k => (if e.1 = k then e.2 else 0) + entrySum rest k

/-- The association list has pairwise distinct keys, as a `HashMap`
always does. -/
def NodupKeys (m : List (String × Nat)) : Prop :=
  (m.map Prod.fst).Nodup

instance : DecidablePred NodupKeys :=
  fun m => inferInstanceAs (Decidable ((m.map Prod.fst).Nodup))

/-- The aggregation loop of `main.rs` lines 106-108:
`for (k, v) in analyzer.usage { *global_counts.entry(k).or_insert(0) += v; }`. -/
def mergeInto (g f : List (String × Nat)) : List (String × Nat) :=
  f.foldl (fun g e => entryAdd g e.1 e.2) g

/-- Aggregating a list of per-file usage maps into a global map, starting
from the empty `global_counts` of `main.rs` line 49. -/
def aggregate (files : List (List (String × Nat))) : List (String × Nat) :=
  files.foldl mergeInto []

/-- The order the report sorts by (`main.rs` line 113):
`sorted.sort_by(|a, b| b.1.cmp(&a.1))` puts `x` before `y` exactly when
`y`'s count is at most `x`'s count, i.e. counts are descending. -/
def countGE (x y : String × Nat) : Prop := y.2 ≤ x.2

instance : DecidableRel countGE := fun x y => Nat.decLe y.2 x.2

instance : IsTotal (String × Nat) countGE :=
  ⟨fun x y => Nat.le_total y.2 x.2⟩

instance : IsTrans (String × Nat) countGE :=
  ⟨fun _ _ _ hxy hyz => Nat.le_trans hyz hxy⟩

/-- `main.rs` lines 112-113: collect the global map into a vector and
stable-sort it by count descending. -/
def report (g : List (String × Nat)) : List (String × Nat) :=
  g.insertionSort countGE

/-- One discovered eligible file, as the per-file loop of `main`
(lines 75-109) encounters it: the read may fail (`fs::read_to_string(path)?`),
the parse may fail (`parser.parse_module()` returning `Err`), or a module
AST is produced. -/
inductive FileInput where
  | readErr (e : String)
  | parseErr
  | parsed (m : List Node)

/-- The per-file loop of `main` (`main.rs` lines 75-109), starting from the
global map `g`: a read failure propagates out immediately via `?`; a parse
failure skips the file (`continue`); a parsed module is analyzed and its
usage map merged into the global map. -/
def runFiles (g : List (String × Nat)) : List FileInput → Except String (List (String × Nat))
  | [] => .ok g
  | .readErr e :: _ => .error e
  | .parseErr :: fs => runFiles g fs
  | .parsed m :: fs => runFiles (mergeInto g (analyzeModule m).usage) fs

/-- `main` as a function from the discovered files to its outcome: either
the sorted report that gets printed (lines 112-117), or the error `main`
returns. -/
def mainRun (files : List FileInput) : Except String (List (String × Nat)) :=
  (runFiles [] files).map report

/-! ## The concrete two-file scenario of the spec (File A / File B) -/

/-- File A: `import { useState } from 'react'; useState(); useState();` —
the import declaration followed by two expression statements whose call
expressions have the identifier `useState` as callee. -/
def fileA : List Node :=
  [Node.importDecl [ImportSpecifier.named "useState" none],
   Node.other [Node.ident "useState"],
   Node.other [Node.ident "useState"]]

/-- File B: `import { useEffect } from 'react'; useEffect();`. -/
def fileB : List Node :=
  [Node.importDecl [ImportSpecifier.named "useEffect" none],
   Node.other [Node.ident "useEffect"]]

/-! ## Traversal events

The visitor touches its state in exactly two ways: it pushes a local name
onto `imports` (inside `visit_import_decl`) and it processes an identifier
(`visit_ident`).  Flattening the depth-first traversal into the sequence
of these two events, in traversal order, gives a linear view of the run
that the correctness statements are phrased over. -/

/-- One state-touching step of the traversal: `bind n` is
`self.imports.push(n)`, `occur s` is a `visit_ident` call on an
identifier with symbol `s`. -/
inductive Event where
  | bind (name : String)
  | occur (sym : String)
deriving DecidableEq, Repr

/-- Replaying one event on the analyzer state. -/
def step (a : Analyzer) : Event → Analyzer
  | .bind n => { a with imports := a.imports ++ [n] }
  | .occur s => a.visitIdent s

/-- Replaying a sequence of events. -/
def replay (a : Analyzer) (es : List Event) : Analyzer :=
  es.foldl step a

mutual

/-- The events produced by visiting one node: an identifier yields one
`occur`; an import declaration yields a `bind` per specifier (all pushes
happen before `visit_children_with`) followed by an `occur` for every
identifier inside the specifiers; any other node yields its children's
events in order. -/
def nodeEvents : Node → List Event
  | .ident s => [.occur s]
  | .importDecl specs =>
      specs.map (fun s => .bind (specLocal s))
        ++ ((specs.map specIdents).flatten).map .occur
  | .other cs => nodesEvents cs

/-- The events of a list of sibling nodes, in order. -/
def nodesEvents : List Node → List Event
  | [] => []
  | n :: ns => nodeEvents n ++ nodesEvents ns

end

/-- The bound names an event sequence pushes, in order. -/
def bindsOf (es : List Event) : List String :=
  es.filterMap fun e =>
    match e with
    | .bind n => some n
    | .occur _ => none

/-- The number of `occur k` events in `es`: the number of identifier
occurrences of `k` in the corresponding stretch of the traversal. -/
def occurCount (es : List Event) (k : String) : Nat :=
  es.count (.occur k)

mutual

/-- The node contains no import declaration anywhere (so in particular a
re-export `export { x } from 'y'`, modelled as `Node.other` over its
identifiers, satisfies this). -/
def noImportDecl : Node → Bool
  | .ident _ => true
  | .importDecl _ => false
  | .other cs => noImportDecls cs

/-- No node of the list contains an import declaration. -/
def noImportDecls : List Node → Bool
  | [] => true
  | n :: ns => noImportDecl n && noImportDecls ns

end

/-- Positions of `es` holding an `occur k` event with a `bind k` event
strictly earlier, counted when the names in `bound` are already bound. -/
def boundOccFrom (bound : List String) (es : List Event) (k : String) : Nat :=
  (List.range es.length).countP (fun i =>
    decide (es.getD i (Event.bind "") = Event.occur k) &&
    (decide (k ∈ bound) || decide (Event.bind k ∈ es.take i)))

/-- The number of identifier occurrences of `k` that come after an import
specifier binding `k` in the flattened traversal: position `i` counts
exactly when it holds `occur k` and some earlier position holds `bind k`. -/
def boundOccurrences (es : List Event) (k : String) : Nat :=
  (List.range es.length).countP (fun i =>
    decide (es.getD i (Event.bind "") = Event.occur k) &&
    decide (Event.bind k ∈ es.take i))

/-! ## Sanity checks on concrete inputs -/

example :
    analyzeModule [Node.importDecl [ImportSpecifier.named "useState" none],
      Node.other [Node.ident "useState"], Node.other [Node.ident "useState"]]
      = ⟨["useState"], [("useState", 3)]⟩ := rfl

example : (analyzeModule fileA).usage = [("useState", 3)] := rfl

example : (analyzeModule fileB).usage = [("useEffect", 2)] := rfl

example : runFiles [] [FileInput.parsed fileA, FileInput.parsed fileB]
    = .ok [("useState", 3), ("useEffect", 2)] := rfl

example : mainRun [FileInput.parsed fileA, FileInput.parsed fileB]
    = .ok [("useState", 3), ("useEffect", 2)] := rfl

example : nodesEvents fileA =
    [.bind "useState", .occur "useState", .occur "useState", .occur "useState"] := rfl

/-! ## Basic lemmas about maps and single steps -/

theorem lookupCount_entryAdd (m : List (String × Nat)) (k v j) :
    lookupCount (entryAdd m k v) j =
      if j = k then some (getCount m k + v) else lookupCount m j := by
  induction m with
  | nil =>
      by_cases hj : j = k
      · subst hj; simp [entryAdd, lookupCount, getCount]
      · have hk : ¬ k = j := fun h => hj h.symm
        simp [entryAdd, lookupCount, getCount, hj, hk]
  | cons e rest ih =>
      by_cases hek : e.1 = k
      · by_cases hj : j = k
        · subst hj
          simp [entryAdd, lookupCount, getCount, hek]
        · have hej : ¬ e.1 = j := fun h => hj (h.symm.trans hek)
          have hkj : ¬ k = j := fun h => hj h.symm
          simp [entryAdd, lookupCount, hek, hej, hj, hkj]
      · by_cases hej : e.1 = j
        · have hj : ¬ j = k := fun h => hek (hej.trans h)
          simp [entryAdd, lookupCount, hek, hej, hj]
        · have h1 : lookupCount (e :: entryAdd rest k v) j
              = lookupCount (entryAdd rest k v) j := by
            simp [lookupCount, hej]
          have h2 : lookupCount (e :: rest) j = lookupCount rest j := by
            simp [lookupCount, hej]
          have h3 : getCount (e :: rest) k = getCount rest k := by
            simp [getCount, lookupCount, hek]
          simp only [entryAdd, if_neg hek]
          rw [h1, ih, h3, h2]

theorem getCount_entryAdd (m : List (String × Nat)) (k v j) :
    getCount (entryAdd m k v) j =
      getCount m j + (if j = k then v else 0) := by
  by_cases hj : j = k <;>
    simp [getCount, lookupCount_entryAdd, hj]

theorem hasKey_entryAdd (m : List (String × Nat)) (k v j) :
    hasKey (entryAdd m k v) j = (hasKey m j || (j = k)) := by
  by_cases hj : j = k <;> simp [hasKey, lookupCount_entryAdd, hj]

theorem lookupCount_eq_of_hasKey (m : List (String × Nat)) (k : String) :
    lookupCount m k = if hasKey m k then some (getCount m k) else none := by
  unfold hasKey getCount
  cases lookupCount m k <;> simp

theorem visitIdent_imports (a : Analyzer) (s : String) :
    (a.visitIdent s).imports = a.imports := by
  unfold Analyzer.visitIdent
  split <;> rfl

theorem visitIdent_usage (a : Analyzer) (s : String) :
    (a.visitIdent s).usage =
      if s ∈ a.imports then entryAdd a.usage s 1 else a.usage := by
  by_cases hmem : s ∈ a.imports
  · have hc : a.imports.contains s = true := by simpa using hmem
    simp [Analyzer.visitIdent, hc, hmem]
  · have hc : a.imports.contains s = false := by simpa using hmem
    simp [Analyzer.visitIdent, hc, hmem]

theorem getCount_visitIdent (a : Analyzer) (s k : String) :
    getCount (a.visitIdent s).usage k =
      getCount a.usage k + (if k = s ∧ s ∈ a.imports then 1 else 0) := by
  rw [visitIdent_usage]
  by_cases hmem : s ∈ a.imports
  · rw [if_pos hmem, getCount_entryAdd]
    by_cases hk : k = s <;> simp [hk, hmem]
  · rw [if_neg hmem]
    simp [hmem]

theorem lookupCount_visitIdent_ne (a : Analyzer) (s k : String) (h : ¬ k = s) :
    lookupCount (a.visitIdent s).usage k = lookupCount a.usage k := by
  rw [visitIdent_usage]
  by_cases hmem : s ∈ a.imports
  · rw [if_pos hmem, lookupCount_entryAdd, if_neg h]
  · rw [if_neg hmem]

/-! ## Replay lemmas -/

theorem replay_cons (a : Analyzer) (e : Event) (es : List Event) :
    replay a (e :: es) = replay (step a e) es := rfl

theorem replay_append (a : Analyzer) (es fs : List Event) :
    replay a (es ++ fs) = replay (replay a es) fs :=
  List.foldl_append step a es fs

theorem replay_imports (es : List Event) : ∀ a : Analyzer,
    (replay a es).imports = a.imports ++ bindsOf es := by
  induction es with
  | nil => intro a; simp [replay, bindsOf]
  | cons e es ih =>
      intro a
      cases e with
      | bind n =>
          rw [replay_cons, ih]
          simp [step, bindsOf, List.filterMap_cons]
      | occur s =>
          rw [replay_cons, ih]
          simp [step, visitIdent_imports, bindsOf, List.filterMap_cons]

/-- Once a name is in `imports`, every later identifier occurrence of it
increments its count by exactly one: membership never degrades, so the
count grows by the number of `occur` events. -/
theorem getCount_replay_of_mem (k : String) (es : List Event) :
    ∀ a : Analyzer, k ∈ a.imports →
      getCount (replay a es).usage k = getCount a.usage k + occurCount es k := by
  induction es with
  | nil => intro a _; simp [replay, occurCount]
  | cons e es ih =>
      intro a hk
      rw [replay_cons]
      cases e with
      | bind n =>
          have hk2 : k ∈ (step a (Event.bind n)).imports :=
            List.mem_append.mpr (Or.inl hk)
          rw [ih _ hk2]
          simp [step, occurCount, List.count_cons]
      | occur s =>
          have himp : (step a (Event.occur s)).imports = a.imports :=
            visitIdent_imports a s
          rw [ih _ (by rw [himp]; exact hk)]
          show getCount (a.visitIdent s).usage k + _ = _
          rw [getCount_visitIdent]
          by_cases hs : k = s
          · subst hs
            simp [occurCount, List.count_cons, hk]
            omega
          · have hne : (Event.occur s == Event.occur k) = false := by
              simp; exact fun h => hs h.symm
            simp [occurCount, List.count_cons, hs, hne]

/-- A name that is not yet bound and is never bound in the events is
never counted, and stays unbound. -/
theorem replay_of_not_bound (k : String) (es : List Event) :
    ∀ a : Analyzer, ¬ k ∈ a.imports → ¬ Event.bind k ∈ es →
      lookupCount (replay a es).usage k = lookupCount a.usage k
        ∧ ¬ k ∈ (replay a es).imports := by
  induction es with
  | nil => intro a h _; exact ⟨rfl, h⟩
  | cons e es ih =>
      intro a hk he
      rw [replay_cons]
      have he2 : ¬ Event.bind k ∈ es := fun h => he (List.mem_cons_of_mem _ h)
      cases e with
      | bind n =>
          have hn : ¬ n = k := by
            intro h
            exact he (by rw [h]; exact List.mem_cons_self _ _)
          have hk2 : ¬ k ∈ (step a (Event.bind n)).imports := by
            intro h
            rcases List.mem_append.mp h with h1 | h1
            · exact hk h1
            · exact hn (List.mem_singleton.mp h1).symm
          have h := ih _ hk2 he2
          exact ⟨h.1, h.2⟩
      | occur s =>
          have himp : (step a (Event.occur s)).imports = a.imports :=
            visitIdent_imports a s
          have hk2 : ¬ k ∈ (step a (Event.occur s)).imports := by
            rw [himp]; exact hk
          have h := ih _ hk2 he2
          refine ⟨?_, h.2⟩
          rw [h.1]
          show lookupCount (a.visitIdent s).usage k = _
          by_cases hs : k = s
          · subst hs
            rw [visitIdent_usage, if_neg hk]
          · exact lookupCount_visitIdent_ne a s k hs

/-! ## The traversal is the replay of its events -/

theorem replay_binds (names : List String) : ∀ a : Analyzer,
    replay a (names.map Event.bind) = { a with imports := a.imports ++ names } := by
  induction names with
  | nil => intro a; simp [replay]
  | cons n ns ih =>
      intro a
      rw [List.map_cons, replay_cons, ih]
      simp [step]

theorem replay_occurs (syms : List String) : ∀ a : Analyzer,
    replay a (syms.map Event.occur) = syms.foldl Analyzer.visitIdent a := by
  induction syms with
  | nil => intro a; rfl
  | cons s ss ih =>
      intro a
      rw [List.map_cons, replay_cons, List.foldl_cons, ih]
      rfl

theorem visitImportDecl_eq_replay (specs : List ImportSpecifier) (a : Analyzer) :
    a.visitImportDecl specs =
      replay a (specs.map (fun s => Event.bind (specLocal s))
        ++ ((specs.map specIdents).flatten).map Event.occur) := by
  have h1 : specs.map (fun s => Event.bind (specLocal s))
      = (specs.map specLocal).map Event.bind := by
    simp [List.map_map]
  rw [h1, replay_append, replay_binds, replay_occurs]
  rfl

mutual

theorem visitNode_eq_replay (n : Node) : ∀ a : Analyzer,
    visitNode a n = replay a (nodeEvents n) := by
  cases n with
  | ident s => intro a; rfl
  | importDecl specs =>
      intro a
      rw [visitNode, nodeEvents]
      exact visitImportDecl_eq_replay specs a
  | other cs =>
      intro a
      rw [visitNode, nodeEvents]
      exact visitNodes_eq_replay cs a

theorem visitNodes_eq_replay (m : List Node) : ∀ a : Analyzer,
    visitNodes a m = replay a (nodesEvents m) := by
  cases m with
  | nil => intro a; rfl
  | cons n ns =>
      intro a
      rw [visitNodes, nodesEvents, replay_append, ← visitNode_eq_replay n a]
      exact visitNodes_eq_replay ns (visitNode a n)

end

theorem analyzeModule_eq_replay (m : List Node) :
    analyzeModule m = replay Analyzer.new (nodesEvents m) :=
  visitNodes_eq_replay m Analyzer.new

theorem analyzeModule_imports (m : List Node) :
    (analyzeModule m).imports = bindsOf (nodesEvents m) := by
  rw [analyzeModule_eq_replay, replay_imports]
  rfl

/-! ## Aggregation lemmas -/

theorem getCount_mergeInto (f : List (String × Nat)) : ∀ g k,
    getCount (mergeInto g f) k = getCount g k + entrySum f k := by
  induction f with
  | nil => intro g k; simp [mergeInto, entrySum]
  | cons e f ih =>
      intro g k
      show getCount (mergeInto (entryAdd g e.1 e.2) f) k = _
      rw [ih, getCount_entryAdd]
      have hs : entrySum (e :: f) k = (if e.1 = k then e.2 else 0) + entrySum f k := rfl
      rw [hs]
      by_cases hk : k = e.1
      · subst hk; simp; omega
      · have h2 : ¬ e.1 = k := fun h => hk h.symm
        simp [hk, h2]

theorem hasKey_eq_any (m : List (String × Nat)) (k : String) :
    hasKey m k = m.any (fun e => e.1 == k) := by
  induction m with
  | nil => rfl
  | cons e m ih =>
      by_cases he : e.1 = k
      · simp [hasKey, lookupCount, List.any_cons, he]
      · have h1 : hasKey (e :: m) k = hasKey m k := by
          simp [hasKey, lookupCount, he]
        have h2 : (e.1 == k) = false := by simp [he]
        rw [List.any_cons, h1, ih, h2, Bool.false_or]

theorem hasKey_mergeInto (f : List (String × Nat)) : ∀ g k,
    hasKey (mergeInto g f) k = (hasKey g k || f.any (fun e => e.1 == k)) := by
  induction f with
  | nil => intro g k; simp [mergeInto]
  | cons e f ih =>
      intro g k
      show hasKey (mergeInto (entryAdd g e.1 e.2) f) k = _
      rw [ih, hasKey_entryAdd]
      by_cases hk : k = e.1
      · subst hk; simp
      · have h2 : ¬ e.1 = k := fun h => hk h.symm
        have h3 : (e.1 == k) = false := by simp [h2]
        simp [hk, h3]

theorem entrySum_eq_zero (f : List (String × Nat)) : ∀ k,
    ¬ k ∈ f.map Prod.fst → entrySum f k = 0 := by
  induction f with
  | nil => intro k _; rfl
  | cons e f ih =>
      intro k hk
      have he : ¬ e.1 = k := by
        intro hh
        exact hk (by rw [List.map_cons, ← hh]; exact List.mem_cons_self _ _)
      have h2 : ¬ k ∈ f.map Prod.fst :=
        fun hh => hk (by rw [List.map_cons]; exact List.mem_cons_of_mem _ hh)
      show (if e.1 = k then e.2 else 0) + entrySum f k = 0
      rw [if_neg he, ih k h2]

theorem entrySum_eq_getCount (f : List (String × Nat)) (h : NodupKeys f) (k : String) :
    entrySum f k = getCount f k := by
  induction f with
  | nil => rfl
  | cons e f ih =>
      have h2 : (e.1 :: f.map Prod.fst).Nodup := h
      have hnd : NodupKeys f := (List.nodup_cons.mp h2).2
      have hnotin : ¬ e.1 ∈ f.map Prod.fst := (List.nodup_cons.mp h2).1
      by_cases he : e.1 = k
      · subst he
        simp [entrySum, getCount, lookupCount, entrySum_eq_zero f e.1 hnotin]
      · simp [entrySum, getCount, lookupCount, he, ih hnd]

/-- Full characterisation of the aggregated map as a mapping: a key is
present exactly when some per-file map mentions it, and its value is the
sum of all matching per-file entries. -/
theorem lookupCount_aggregate_from (files : List (List (String × Nat))) :
    ∀ (g : List (String × Nat)) (k : String),
      lookupCount (files.foldl mergeInto g) k =
        if (hasKey g k || files.any (fun f => f.any (fun e => e.1 == k))) then
          some (getCount g k + (files.map (fun f => entrySum f k)).sum)
        else none := by
  induction files with
  | nil =>
      intro g k
      rw [List.foldl_nil, lookupCount_eq_of_hasKey]
      simp
  | cons f fs ih =>
      intro g k
      rw [List.foldl_cons, ih, hasKey_mergeInto, getCount_mergeInto]
      rw [List.any_cons, List.map_cons, List.sum_cons, Bool.or_assoc, Nat.add_assoc]

theorem lookupCount_aggregate (files : List (List (String × Nat))) (k : String) :
    lookupCount (aggregate files) k =
      if files.any (fun f => f.any (fun e => e.1 == k)) then
        some ((files.map (fun f => entrySum f k)).sum)
      else none := by
  rw [aggregate, lookupCount_aggregate_from]
  show (if (false || _) = true then some (0 + _) else none) = _
  rw [Bool.false_or, Nat.zero_add]

/-! ## Counts in the maps are positive -/

theorem entryAdd_pos (m : List (String × Nat)) (k : String) (v : Nat)
    (hm : ∀ e ∈ m, 1 ≤ e.2) (hv : 1 ≤ v) :
    ∀ e ∈ entryAdd m k v, 1 ≤ e.2 := by
  induction m with
  | nil =>
      intro e he
      rw [entryAdd] at he
      rcases List.mem_singleton.mp he with h
      rw [h]
      exact hv
  | cons x m ih =>
      intro e he
      rw [entryAdd] at he
      by_cases hx : x.1 = k
      · rw [if_pos hx] at he
        rcases List.mem_cons.mp he with h | h
        · rw [h]
          have := hm x (List.mem_cons_self _ _)
          simp
          omega
        · exact hm e (List.mem_cons_of_mem _ h)
      · rw [if_neg hx] at he
        rcases List.mem_cons.mp he with h | h
        · rw [h]; exact hm x (List.mem_cons_self _ _)
        · exact ih (fun e he => hm e (List.mem_cons_of_mem _ he)) e h

theorem replay_usage_pos (es : List Event) : ∀ a : Analyzer,
    (∀ e ∈ a.usage, 1 ≤ e.2) → ∀ e ∈ (replay a es).usage, 1 ≤ e.2 := by
  induction es with
  | nil => intro a ha; exact ha
  | cons e es ih =>
      intro a ha
      rw [replay_cons]
      cases e with
      | bind n => exact ih _ ha
      | occur s =>
          refine ih _ ?_
          show ∀ e ∈ (a.visitIdent s).usage, 1 ≤ e.2
          rw [visitIdent_usage]
          by_cases hs : s ∈ a.imports
          · rw [if_pos hs]
            exact entryAdd_pos a.usage s 1 ha (Nat.le_refl 1)
          · rw [if_neg hs]
            exact ha

theorem analyzeModule_usage_pos (m : List Node) :
    ∀ e ∈ (analyzeModule m).usage, 1 ≤ e.2 := by
  rw [analyzeModule_eq_replay]
  exact replay_usage_pos _ _ (by intro e he; cases he)

theorem mergeInto_pos (f : List (String × Nat)) : ∀ g : List (String × Nat),
    (∀ e ∈ g, 1 ≤ e.2) → (∀ e ∈ f, 1 ≤ e.2) →
      ∀ e ∈ mergeInto g f, 1 ≤ e.2 := by
  induction f with
  | nil => intro g hg _; exact hg
  | cons x f ih =>
      intro g hg hf
      show ∀ e ∈ mergeInto (entryAdd g x.1 x.2) f, 1 ≤ e.2
      refine ih _ ?_ (fun e he => hf e (List.mem_cons_of_mem _ he))
      exact entryAdd_pos g x.1 x.2 hg (hf x (List.mem_cons_self _ _))

theorem runFiles_pos (files : List FileInput) : ∀ g g2 : List (String × Nat),
    (∀ e ∈ g, 1 ≤ e.2) → runFiles g files = .ok g2 → ∀ e ∈ g2, 1 ≤ e.2 := by
  induction files with
  | nil =>
      intro g g2 hg hrun
      rw [runFiles] at hrun
      cases hrun
      exact hg
  | cons f fs ih =>
      intro g g2 hg hrun
      cases f with
      | readErr e => rw [runFiles] at hrun; cases hrun
      | parseErr => exact ih g g2 hg hrun
      | parsed m =>
          refine ih _ g2 ?_ hrun
          exact mergeInto_pos _ g hg (analyzeModule_usage_pos m)

/-! ## Modules without import declarations -/

mutual

theorem bindsOf_nodeEvents (n : Node) (h : noImportDecl n = true) :
    bindsOf (nodeEvents n) = [] := by
  cases n with
  | ident s => rfl
  | importDecl specs => exact absurd h (by rw [noImportDecl]; simp)
  | other cs =>
      rw [nodeEvents]
      exact bindsOf_nodesEvents cs (by rw [noImportDecl] at h; exact h)

theorem bindsOf_nodesEvents (m : List Node) (h : noImportDecls m = true) :
    bindsOf (nodesEvents m) = [] := by
  cases m with
  | nil => rfl
  | cons n ns =>
      rw [noImportDecls, Bool.and_eq_true] at h
      rw [nodesEvents, bindsOf, List.filterMap_append]
      show bindsOf (nodeEvents n) ++ bindsOf (nodesEvents ns) = []
      rw [bindsOf_nodeEvents n h.1, bindsOf_nodesEvents ns h.2]
      rfl

end

/-- An event sequence with no `bind` events, replayed from a state with
no imports, counts nothing: the usage map is untouched. -/
theorem replay_no_binds (es : List Event) : ∀ a : Analyzer,
    a.imports = [] → bindsOf es = [] →
      (replay a es).imports = [] ∧ (replay a es).usage = a.usage := by
  induction es with
  | nil => intro a h _; exact ⟨h, rfl⟩
  | cons e es ih =>
      intro a ha he
      cases e with
      | bind n =>
          exact absurd he (by rw [bindsOf, List.filterMap_cons]; simp)
      | occur s =>
          rw [replay_cons]
          have hb : bindsOf es = [] := by
            rw [bindsOf, List.filterMap_cons] at he
            exact he
          have hstep : step a (Event.occur s) = a := by
            show a.visitIdent s = a
            unfold Analyzer.visitIdent
            rw [ha]
            rfl
          rw [hstep]
          exact ih a ha hb

theorem analyzeModule_no_imports (m : List Node) (h : noImportDecls m = true) :
    (analyzeModule m).imports = [] ∧ (analyzeModule m).usage = [] := by
  rw [analyzeModule_eq_replay]
  exact replay_no_binds (nodesEvents m) Analyzer.new rfl (bindsOf_nodesEvents m h)

/-! ## Declarative occurrence counting -/

theorem boundOccFrom_cons_bind (bound : List String) (n : String)
    (es : List Event) (k : String) :
    boundOccFrom bound (Event.bind n :: es) k = boundOccFrom (bound ++ [n]) es k := by
  unfold boundOccFrom
  rw [List.length_cons, List.range_succ_eq_map, List.countP_cons, List.countP_map]
  have h0 : (decide ((Event.bind n :: es).getD 0 (Event.bind "") = Event.occur k) &&
      (decide (k ∈ bound) || decide (Event.bind k ∈ (Event.bind n :: es).take 0))) = false := by
    simp
  rw [h0]
  simp only [Bool.false_eq_true, if_false, Nat.add_zero]
  apply List.countP_congr
  intro i _
  simp only [Function.comp_def, Nat.succ_eq_add_one, List.getD_cons_succ,
    List.take_succ_cons, List.mem_cons, List.mem_append, List.mem_singleton,
    Bool.and_eq_true, Bool.or_eq_true, decide_eq_true_eq]
  constructor
  · rintro ⟨h1, h2⟩
    refine ⟨h1, ?_⟩
    rcases h2 with h2 | h2 | h2
    · exact Or.inl (Or.inl h2)
    · exact Or.inl (Or.inr (Or.inl (Event.bind.inj h2)))
    · exact Or.inr h2
  · rintro ⟨h1, h2⟩
    refine ⟨h1, ?_⟩
    rcases h2 with (h2 | h2 | h2) | h2
    · exact Or.inl h2
    · exact Or.inr (Or.inl (by rw [h2]))
    · exact absurd h2 (List.not_mem_nil k)
    · exact Or.inr (Or.inr h2)

theorem boundOccFrom_cons_occur (bound : List String) (s : String)
    (es : List Event) (k : String) :
    boundOccFrom bound (Event.occur s :: es) k =
      boundOccFrom bound es k + (if s = k ∧ k ∈ bound then 1 else 0) := by
  unfold boundOccFrom
  rw [List.length_cons, List.range_succ_eq_map, List.countP_cons, List.countP_map]
  congr 1
  · apply List.countP_congr
    intro i _
    simp only [Function.comp_def, Nat.succ_eq_add_one, List.getD_cons_succ,
      List.take_succ_cons, List.mem_cons, Bool.and_eq_true, Bool.or_eq_true,
      decide_eq_true_eq]
    constructor
    · rintro ⟨h1, h2⟩
      refine ⟨h1, ?_⟩
      rcases h2 with h2 | h2
      · exact Or.inl h2
      · rcases h2 with h2 | h2
        · exact absurd h2 (by simp)
        · exact Or.inr h2
    · rintro ⟨h1, h2⟩
      exact ⟨h1, h2.imp id (fun h => Or.inr h)⟩
  · by_cases hs : s = k
    · subst hs
      by_cases hb : s ∈ bound <;> simp [hb]
    · simp [hs]

/-- The analyzer's count for `k` is the declarative occurrence count:
identifier occurrences of `k` preceded by (or starting under) a binding
of `k`. -/
theorem getCount_replay_boundOcc (es : List Event) : ∀ (a : Analyzer) (k : String),
    getCount (replay a es).usage k = getCount a.usage k + boundOccFrom a.imports es k := by
  induction es with
  | nil => intro a k; simp [replay, boundOccFrom]
  | cons e es ih =>
      intro a k
      rw [replay_cons]
      cases e with
      | bind n =>
          rw [ih, boundOccFrom_cons_bind]
          rfl
      | occur s =>
          rw [ih]
          simp only [step]
          rw [visitIdent_imports, getCount_visitIdent, boundOccFrom_cons_occur]
          by_cases hs : s = k
          · subst hs
            by_cases hb : s ∈ a.imports
            · simp [hb]
              omega
            · simp [hb]
          · have h2 : ¬ k = s := fun h => hs h.symm
            simp [hs, h2]

theorem boundOccFrom_nil_bound (es : List Event) (k : String) :
    boundOccFrom [] es k = boundOccurrences es k := by
  unfold boundOccFrom boundOccurrences
  apply List.countP_congr
  intro i _
  simp


/-! ## Claim theorems -/

/-- C1, counterexample: in the module `x; import { x } from 'm'` the name
`x` is import-bound and the module holds two identifier occurrences of
`x` (the expression statement and the import specifier's own local
identifier), yet the per-file usage mapping gives `x` the count 1, not 2:
an occurrence placed before the import declaration is not counted, so the
mapping does not give the number of occurrences "anywhere in the
module". -/
theorem usage_anywhere_cex :
    "x" ∈ (analyzeModule [Node.ident "x",
        Node.importDecl [ImportSpecifier.named "x" none]]).imports ∧
    occurCount (nodesEvents [Node.ident "x",
        Node.importDecl [ImportSpecifier.named "x" none]]) "x" = 2 ∧
    getCount (analyzeModule [Node.ident "x",
        Node.importDecl [ImportSpecifier.named "x" none]]).usage "x" = 1 ∧
    (1 : Nat) ≠ 2 := by
  refine ⟨by decide, rfl, rfl, by decide⟩

/-- C1, amended: for every module and import-bound name `k`, the per-file
usage mapping maps `k` to the number of identifier occurrences of `k` at
or after `k`'s first binding import specifier in the depth-first
traversal (occurrences inside the import declarations' own specifier
nodes included); occurrences strictly before that first binding are not
counted. -/
theorem usage_counts_from_binding (m : List Node) (k : String)
    (pre post : List Event)
    (hsplit : nodesEvents m = pre ++ Event.bind k :: post)
    (hpre : ¬ Event.bind k ∈ pre) :
    getCount (analyzeModule m).usage k = occurCount post k := by
  rw [analyzeModule_eq_replay, hsplit, replay_append, replay_cons]
  have h1 := replay_of_not_bound k pre Analyzer.new (by intro h; cases h) hpre
  have hmem : k ∈ (step (replay Analyzer.new pre) (Event.bind k)).imports := by
    show k ∈ (replay Analyzer.new pre).imports ++ [k]
    exact List.mem_append.mpr (Or.inr (List.mem_singleton.mpr rfl))
  rw [getCount_replay_of_mem k post _ hmem]
  have h0 : getCount (step (replay Analyzer.new pre) (Event.bind k)).usage k = 0 := by
    show getCount (replay Analyzer.new pre).usage k = 0
    rw [getCount, h1.1]
    rfl
  rw [h0, Nat.zero_add]

/-- C1, witness: on `import { w } from 'm'; w(); w();` the count of `w`
is the number of occurrences from its binding specifier on, namely 3. -/
theorem usage_counts_from_binding_witness :
    getCount (analyzeModule [Node.importDecl [ImportSpecifier.named "w" none],
        Node.other [Node.ident "w"], Node.other [Node.ident "w"]]).usage "w"
      = occurCount [Event.occur "w", Event.occur "w", Event.occur "w"] "w" :=
  usage_counts_from_binding _ "w" []
    [Event.occur "w", Event.occur "w", Event.occur "w"] rfl (by decide)

/-- C2, counterexample: on File A
(`import { useState } from 'react'; useState(); useState();`) the
per-file mapping is `{useState: 3}` — the import specifier's own
identifier is counted too — not `{useState: 2}` as claimed; likewise
File B yields `{useEffect: 2}`, not `{useEffect: 1}`. -/
theorem scenario_cex :
    (analyzeModule fileA).usage = [("useState", 3)] ∧
    (analyzeModule fileA).usage ≠ [("useState", 2)] ∧
    (analyzeModule fileB).usage = [("useEffect", 2)] ∧
    (analyzeModule fileB).usage ≠ [("useEffect", 1)] := by
  refine ⟨rfl, by decide, rfl, by decide⟩

/-- C2, amended: for the two-file input File A / File B the per-file
mappings are exactly `{useState: 3}` and `{useEffect: 2}` (the import
specifiers' own identifiers are counted), the global mapping after
aggregating both is exactly `{useState: 3, useEffect: 2}`, and the
sorted report lists `useState 3` before `useEffect 2`. -/
theorem scenario_actual :
    (analyzeModule fileA).usage = [("useState", 3)] ∧
    (analyzeModule fileB).usage = [("useEffect", 2)] ∧
    aggregate [(analyzeModule fileA).usage, (analyzeModule fileB).usage]
      = [("useState", 3), ("useEffect", 2)] ∧
    mainRun [FileInput.parsed fileA, FileInput.parsed fileB]
      = Except.ok [("useState", 3), ("useEffect", 2)] :=
  ⟨rfl, rfl, rfl, rfl⟩

/-- C3, counterexample: in `f(y); import { y } from 'm'` the identifier
occurrence of `y` before the import declaration has its textual name in
the module's import-bound set, yet it does not increment the counter:
the final count is 1 (the specifier identifier alone), not the 2 the
claim's order-independence would require. -/
theorem order_independence_cex :
    "y" ∈ (analyzeModule [Node.other [Node.ident "y"],
        Node.importDecl [ImportSpecifier.named "y" none]]).imports ∧
    occurCount (nodesEvents [Node.other [Node.ident "y"],
        Node.importDecl [ImportSpecifier.named "y" none]]) "y" = 2 ∧
    getCount (analyzeModule [Node.other [Node.ident "y"],
        Node.importDecl [ImportSpecifier.named "y" none]]).usage "y" = 1 ∧
    (1 : Nat) ≠ 2 := by
  refine ⟨by decide, rfl, rfl, by decide⟩

/-- C3, amended: the final per-file count of a name is the number of
identifier occurrences that are preceded in the depth-first traversal by
an import specifier binding that name: each such occurrence increments
the counter by exactly one, an occurrence before the binding import
declaration is ignored, and an identifier whose name is never bound is
ignored. -/
theorem usage_eq_boundOccurrences (m : List Node) (k : String) :
    getCount (analyzeModule m).usage k = boundOccurrences (nodesEvents m) k := by
  rw [analyzeModule_eq_replay, getCount_replay_boundOcc]
  have h1 : getCount Analyzer.new.usage k = 0 := rfl
  have h2 : Analyzer.new.imports = [] := rfl
  rw [h1, h2, boundOccFrom_nil_bound, Nat.zero_add]

/-- C4: aggregation is order-insensitive: for per-file usage maps (maps
with pairwise distinct keys, as hash maps are), aggregating any
permutation of the file list yields the same global mapping, and each
name's global count is the sum of its per-file counts, an absent key
counting as zero. -/
theorem aggregate_perm_sum (files files2 : List (List (String × Nat)))
    (hperm : files.Perm files2) (hnd : ∀ f ∈ files, NodupKeys f) :
    (∀ k, getCount (aggregate files) k
        = (files.map (fun f => getCount f k)).sum) ∧
    (∀ k, lookupCount (aggregate files2) k = lookupCount (aggregate files) k) := by
  have hzero : ∀ k : String,
      files.any (fun f => f.any (fun e => e.1 == k)) = false →
      (files.map (fun f => getCount f k)).sum = 0 := by
    intro k hany
    apply List.sum_eq_zero
    intro x hx
    rcases List.mem_map.mp hx with ⟨f, hf, hfx⟩
    rw [← hfx]
    cases hb : f.any (fun e => e.1 == k) with
    | true =>
        have h1 : files.any (fun f => f.any (fun e => e.1 == k)) = true :=
          List.any_eq_true.mpr ⟨f, hf, hb⟩
        rw [h1] at hany
        cases hany
    | false =>
        have hk : hasKey f k = false := by rw [hasKey_eq_any, hb]
        rw [getCount, lookupCount_eq_of_hasKey, hk]
        rfl
  have hsum : ∀ k : String, (files.map (fun f => entrySum f k)).sum
      = (files.map (fun f => getCount f k)).sum := by
    intro k
    have hmc : files.map (fun f => entrySum f k)
        = files.map (fun f => getCount f k) :=
      List.map_congr_left (fun f hf => entrySum_eq_getCount f (hnd f hf) k)
    rw [hmc]
  constructor
  · intro k
    rw [getCount, lookupCount_aggregate files k]
    cases hany : files.any (fun f => f.any (fun e => e.1 == k)) with
    | true =>
        rw [if_pos rfl]
        exact hsum k
    | false =>
        rw [if_neg Bool.false_ne_true]
        exact (hzero k hany).symm
  · intro k
    rw [lookupCount_aggregate files2 k, lookupCount_aggregate files k]
    have hany2 : files2.any (fun f => f.any (fun e => e.1 == k))
        = files.any (fun f => f.any (fun e => e.1 == k)) := by
      cases h : files.any (fun f => f.any (fun e => e.1 == k)) with
      | true =>
          rcases List.any_eq_true.mp h with ⟨f, hf, hp⟩
          exact List.any_eq_true.mpr ⟨f, hperm.mem_iff.mp hf, hp⟩
      | false =>
          cases h2 : files2.any (fun f => f.any (fun e => e.1 == k)) with
          | false => rfl
          | true =>
              rcases List.any_eq_true.mp h2 with ⟨f, hf, hp⟩
              have h3 : files.any (fun f => f.any (fun e => e.1 == k)) = true :=
                List.any_eq_true.mpr ⟨f, hperm.mem_iff.mpr hf, hp⟩
              rw [h] at h3
              cases h3
    have hs2 : (files2.map (fun f => entrySum f k)).sum
        = (files.map (fun f => entrySum f k)).sum :=
      (hperm.map (fun f => entrySum f k)).sum_eq.symm
    rw [hany2, hs2]

/-- C4, witness: two concrete per-file maps aggregated in both orders. -/
theorem aggregate_perm_sum_witness :
    getCount (aggregate [[("a", 1)], [("a", 2), ("b", 1)]]) "a"
        = ([[("a", 1)], [("a", 2), ("b", 1)]].map (fun f => getCount f "a")).sum
      ∧ lookupCount (aggregate [[("a", 2), ("b", 1)], [("a", 1)]]) "a"
        = lookupCount (aggregate [[("a", 1)], [("a", 2), ("b", 1)]]) "a" :=
  ⟨(aggregate_perm_sum [[("a", 1)], [("a", 2), ("b", 1)]]
      [[("a", 2), ("b", 1)], [("a", 1)]] (by decide) (by decide)).1 "a",
   (aggregate_perm_sum [[("a", 1)], [("a", 2), ("b", 1)]]
      [[("a", 2), ("b", 1)], [("a", 1)]] (by decide) (by decide)).2 "a"⟩

/-- C5: a file that fails to parse contributes nothing: skipping it
leaves the global map exactly as it was when the file was attempted, and
the run continues over the remaining files exactly as if the failing
file were absent. -/
theorem parse_failure_skipped (pre post : List FileInput) :
    (∀ g : List (String × Nat),
      runFiles g (FileInput.parseErr :: post) = runFiles g post) ∧
    runFiles [] (pre ++ FileInput.parseErr :: post)
      = runFiles [] (pre ++ post) := by
  constructor
  · intro g
    rfl
  · have aux : ∀ (l : List FileInput) (g : List (String × Nat)),
        runFiles g (l ++ FileInput.parseErr :: post) = runFiles g (l ++ post) := by
      intro l
      induction l with
      | nil => intro g; rfl
      | cons f fs ih =>
          intro g
          cases f with
          | readErr e => rfl
          | parseErr => exact ih g
          | parsed m => exact ih _
    exact aux pre []

/-- C6: for `import { a as b } from 'mod'` the collected binding is the
local alias `b`, not `a`; the count of `b` is one (the specifier's own
local identifier) plus every later identifier occurrence of `b`; and
when `a` is not separately import-bound, `a` never becomes a key of the
usage map — its occurrences (including the specifier's `imported`
identifier itself) are not counted. -/
theorem aliasing_binding (a b : String) (rest : List Node)
    (hab : ¬ a = b) (hnb : ¬ Event.bind a ∈ nodesEvents rest) :
    specLocal (ImportSpecifier.named b (some a)) = b ∧
    getCount (analyzeModule
        (Node.importDecl [ImportSpecifier.named b (some a)] :: rest)).usage b
      = 1 + occurCount (nodesEvents rest) b ∧
    lookupCount (analyzeModule
        (Node.importDecl [ImportSpecifier.named b (some a)] :: rest)).usage a
      = none := by
  have hev : nodesEvents (Node.importDecl [ImportSpecifier.named b (some a)] :: rest)
      = Event.bind b :: Event.occur b :: Event.occur a :: nodesEvents rest := rfl
  refine ⟨rfl, ?_, ?_⟩
  · rw [analyzeModule_eq_replay, hev, replay_cons]
    have hmem : b ∈ (step Analyzer.new (Event.bind b)).imports := by
      show b ∈ ([] : List String) ++ [b]
      simp
    rw [getCount_replay_of_mem b _ _ hmem]
    have h0 : getCount (step Analyzer.new (Event.bind b)).usage b = 0 := rfl
    rw [h0, Nat.zero_add]
    have hba : (Event.occur a == Event.occur b) = false := by
      simp [hab]
    rw [occurCount, List.count_cons, List.count_cons, hba]
    simp [occurCount]
    omega
  · have hnotin : ¬ Event.bind a ∈ (Event.bind b :: Event.occur b ::
        Event.occur a :: nodesEvents rest) := by
      intro h
      rcases List.mem_cons.mp h with h | h
      · exact hab (Event.bind.inj h)
      rcases List.mem_cons.mp h with h | h
      · exact Event.noConfusion h
      rcases List.mem_cons.mp h with h | h
      · exact Event.noConfusion h
      · exact hnb h
    have h1 := (replay_of_not_bound a _ Analyzer.new
      (by intro h; cases h) hnotin).1
    rw [analyzeModule_eq_replay, hev, h1]
    rfl

/-- C6, witness: `import { a as b } from 'mod'; b(); a;` gives `b` the
count 2 and gives `a` no entry. -/
theorem aliasing_binding_witness :
    specLocal (ImportSpecifier.named "b" (some "a")) = "b" ∧
    getCount (analyzeModule (Node.importDecl [ImportSpecifier.named "b" (some "a")]
        :: [Node.other [Node.ident "b"], Node.ident "a"])).usage "b"
      = 1 + occurCount (nodesEvents [Node.other [Node.ident "b"], Node.ident "a"]) "b" ∧
    lookupCount (analyzeModule (Node.importDecl [ImportSpecifier.named "b" (some "a")]
        :: [Node.other [Node.ident "b"], Node.ident "a"])).usage "a" = none :=
  aliasing_binding "a" "b" [Node.other [Node.ident "b"], Node.ident "a"]
    (by decide) (by decide)

/-- C7: the collector produces exactly one name per import specifier
(its local name) and nothing else: a module without import declarations
yields an empty binding collection and hence an empty per-file usage
map, and a node that is not an import declaration — in particular a
re-export `export { x } from 'y'`, modelled as `Node.other` over its
identifiers — contributes no bindings. -/
theorem import_binding_collector :
    (∀ specs : List ImportSpecifier,
      (specs.map specLocal).length = specs.length) ∧
    (∀ m : List Node, noImportDecls m = true →
      (analyzeModule m).imports = [] ∧ (analyzeModule m).usage = []) ∧
    (∀ (a : Analyzer) (cs : List Node), noImportDecls cs = true →
      (visitNode a (Node.other cs)).imports = a.imports) := by
  refine ⟨fun specs => List.length_map _ _, analyzeModule_no_imports, ?_⟩
  intro a cs h
  show (visitNodes a cs).imports = a.imports
  rw [visitNodes_eq_replay, replay_imports, bindsOf_nodesEvents cs h,
    List.append_nil]

/-- C7, witness: one name per specifier on a three-specifier list, a
module free of imports (a re-export of `x`), and an `other` node leaving
the bindings untouched. -/
theorem import_binding_collector_witness :
    (([ImportSpecifier.named "x" (some "y"), ImportSpecifier.dflt "d",
        ImportSpecifier.nspace "n"].map specLocal).length = 3) ∧
    ((analyzeModule [Node.other [Node.ident "x"]]).imports = [] ∧
      (analyzeModule [Node.other [Node.ident "x"]]).usage = []) ∧
    (visitNode ⟨["z"], []⟩ (Node.other [Node.ident "q"])).imports = ["z"] :=
  ⟨import_binding_collector.1 _,
   import_binding_collector.2.1 [Node.other [Node.ident "x"]] (by decide),
   import_binding_collector.2.2 ⟨["z"], []⟩ [Node.ident "q"] (by decide)⟩

/-- C8: the report is the global mapping rendered as a sequence of
(name, count) pairs — a permutation of its entries — sorted by count
descending: for every pair of adjacent entries the earlier count is at
least the later count. -/
theorem report_sorted_desc :
    (∀ g : List (String × Nat), (report g).Perm g) ∧
    (∀ (g : List (String × Nat)) (i : Nat) (h : i + 1 < (report g).length),
      ((report g).get ⟨i + 1, h⟩).2
        ≤ ((report g).get ⟨i, Nat.lt_of_succ_lt h⟩).2) := by
  constructor
  · intro g
    exact List.perm_insertionSort countGE g
  · intro g i h
    have hs : List.Sorted countGE (report g) := List.sorted_insertionSort countGE g
    exact List.pairwise_iff_get.mp hs ⟨i, Nat.lt_of_succ_lt h⟩ ⟨i + 1, h⟩
      (Fin.mk_lt_mk.mpr (Nat.lt_succ_self i))

/-- C8, witness: the report of `{a: 1, b: 2}` is `[b 2, a 1]`, and the
adjacent pair is descending. -/
theorem report_sorted_desc_witness :
    ((report [("a", 1), ("b", 2)]).get ⟨0 + 1, by decide⟩).2
      ≤ ((report [("a", 1), ("b", 2)]).get ⟨0, by decide⟩).2 :=
  report_sorted_desc.2 [("a", 1), ("b", 2)] 0 (by decide)

/-- C9: the global map only grows: merging a per-file map never removes
a key and never decreases a count, and every key of a per-file usage map
or of a global map produced by the run has a count of at least 1. -/
theorem global_map_monotone :
    (∀ (g f : List (String × Nat)) (k : String),
      hasKey g k = true → hasKey (mergeInto g f) k = true) ∧
    (∀ (g f : List (String × Nat)) (k : String),
      getCount g k ≤ getCount (mergeInto g f) k) ∧
    (∀ m : List Node, ∀ e ∈ (analyzeModule m).usage, 1 ≤ e.2) ∧
    (∀ (files : List FileInput) (g : List (String × Nat)),
      runFiles [] files = Except.ok g → ∀ e ∈ g, 1 ≤ e.2) := by
  refine ⟨?_, ?_, analyzeModule_usage_pos, ?_⟩
  · intro g f k h
    rw [hasKey_mergeInto, h, Bool.true_or]
  · intro g f k
    rw [getCount_mergeInto]
    exact Nat.le_add_right _ _
  · intro files g hrun
    exact runFiles_pos files [] g (by intro e he; cases he) hrun

/-- C9, witness: concrete merge keeping a key and its count, and the
counts of the concrete runs are at least 1. -/
theorem global_map_monotone_witness :
    hasKey (mergeInto [("a", 1)] [("b", 2)]) "a" = true ∧
    getCount [("a", 1)] "a" ≤ getCount (mergeInto [("a", 1)] [("b", 2)]) "a" ∧
    (1 : Nat) ≤ (("useState", 3) : String × Nat).2 ∧
    (1 : Nat) ≤ (("useEffect", 2) : String × Nat).2 :=
  ⟨global_map_monotone.1 [("a", 1)] [("b", 2)] "a" (by decide),
   global_map_monotone.2.1 [("a", 1)] [("b", 2)] "a",
   global_map_monotone.2.2.1 fileA ("useState", 3) (by decide),
   global_map_monotone.2.2.2 [FileInput.parsed fileB] [("useEffect", 2)] rfl
     ("useEffect", 2) (by decide)⟩

/-- C10: a per-file read failure is fatal, unlike a parse failure: when
no earlier file has a read failure, the run returns that error — the
report is never produced, counts from earlier files are discarded, and
later files are not processed. -/
theorem read_failure_aborts (pre post : List FileInput) (e : String)
    (hpre : ∀ f ∈ pre, ∀ msg : String, f ≠ FileInput.readErr msg) :
    mainRun (pre ++ FileInput.readErr e :: post) = Except.error e := by
  have aux : ∀ l : List FileInput,
      (∀ f ∈ l, ∀ msg : String, f ≠ FileInput.readErr msg) →
      ∀ g : List (String × Nat),
        runFiles g (l ++ FileInput.readErr e :: post) = Except.error e := by
    intro l
    induction l with
    | nil => intro _ g; rfl
    | cons f fs ih =>
        intro hl g
        cases f with
        | readErr msg =>
            exact absurd rfl (hl _ (List.mem_cons_self _ _) msg)
        | parseErr =>
            exact ih (fun f hf => hl f (List.mem_cons_of_mem _ hf)) g
        | parsed m =>
            exact ih (fun f hf => hl f (List.mem_cons_of_mem _ hf)) _
  rw [mainRun, aux pre hpre []]
  rfl

/-- C10, witness: a readable file, then an unreadable one, then another
readable one: the run returns the I/O error. -/
theorem read_failure_aborts_witness :
    mainRun [FileInput.parsed fileA, FileInput.readErr "io",
      FileInput.parsed fileB] = Except.error "io" :=
  read_failure_aborts [FileInput.parsed fileA] [FileInput.parsed fileB] "io"
    (by
      intro f hf msg
      rw [List.mem_singleton] at hf
      subst hf
      simp)
